import Mathlib

/-!
Verification development for the `measurementor` OCR fusion engine.

The definitions below are a shallow embedding of the Rust sources:
  * `src/src-tauri/src/config.rs`    — region keyframe interpolation,
  * `src/src-tauri/src/ocr.rs`       — fusion orchestrator, validation scorer,
                                       number cleaning,
  * `src/src-tauri/src/ocr/tesseract.rs` — classical-OCR text gate and the
                                       CLAHE clip/redistribute step,
  * `src/src-tauri/src/ocr/oar.rs`   — neural-predictor result gate,
  * `src/src-tauri/src/processor.rs` — previous-accepted-value bookkeeping.

Modelling conventions:
  * Rust `f64` values are modelled as exact rationals (`ℚ`): float rounding,
    infinities and NaN are outside the model.  All scoring constants
    (0.1, 0.4, 0.65, 0.5) are carried as exact rationals.
  * `str::parse::<f64>` is modelled by `parseF64`, covering the decimal and
    scientific formats; the special spellings `inf`/`infinity`/`nan` (not
    representable in `ℚ`) are outside the model.
  * Native OCR engine invocations (Tesseract API calls, the ONNX predictor)
    are external collaborators: their raw outputs appear as explicit
    parameters, and all code *around* those calls is embedded faithfully.
  * Images and crops are opaque to the orchestration logic; the candidate
    pools `read_region` works on are therefore taken as explicit lists, and
    the returned flag records whether the fallback tier was evaluated.
-/

namespace Measurementor

-- ── Rust primitive models ───────────────────────────────────────────────────

/-- Rust `f64::round`: round half away from zero. -/
def rustRound (q : ℚ) : ℤ :=
  if 0 ≤ q then ⌊q + 1 / 2⌋ else ⌈q - 1 / 2⌉

/-- ASCII whitespace recognised by `str::trim` on the inputs we model. -/
def isWs (c : Char) : Bool :=
  c = ' ' ∨ c = '\t' ∨ c = '\n' ∨ c = '\r'

/-- Rust `str::trim` on a character list. -/
def rustTrimL (l : List Char) : List Char :=
  ((l.dropWhile isWs).reverse.dropWhile isWs).reverse

/-- Rust `str::trim`. -/
def rustTrim (s : String) : String :=
  String.mk (rustTrimL s.toList)

/-- Rust `str::lines().next().unwrap_or("")`: everything before the first
newline (a trailing carriage return is later removed by `trim`). -/
def firstLine (l : List Char) : List Char :=
  l.takeWhile (fun c => c ≠ '\n')

/-- Digit run to a natural number. -/
def digitsToNat (ds : List Char) : ℕ :=
  ds.foldl (fun n c => 10 * n + (c.toNat - '0'.toNat)) 0

/-- Model of Rust `str::parse::<f64>` as exact rational parsing: optional
sign, decimal mantissa with at least one digit, optional exponent.  The
whole string must be consumed.  `inf`/`nan` spellings are outside the model. -/
def parseF64 (s : String) : Option ℚ :=
  let l := s.toList
  let sl : ℚ × List Char :=
    match l with
    | '-' :: r => (-1, r)
    | '+' :: r => (1, r)
    | _ => (1, l)
  let ip := sl.2.takeWhile Char.isDigit
  let r1 := sl.2.dropWhile Char.isDigit
  let fr : List Char × List Char :=
    match r1 with
    | '.' :: rest => (rest.takeWhile Char.isDigit, rest.dropWhile Char.isDigit)
    | _ => ([], r1)
  if ip = [] ∧ fr.1 = [] then none
  else
    let mant : ℚ := (digitsToNat ip : ℚ) + (digitsToNat fr.1 : ℚ) / (10 ^ fr.1.length)
    match fr.2 with
    | [] => some (sl.1 * mant)
    | c :: rest =>
      if c = 'e' ∨ c = 'E' then
        let es : Bool × List Char :=
          match rest with
          | '-' :: rr => (true, rr)
          | '+' :: rr => (false, rr)
          | _ => (false, rest)
        let ed := es.2.takeWhile Char.isDigit
        if ed = [] ∨ es.2.dropWhile Char.isDigit ≠ [] then none
        else some (sl.1 * mant * (if es.1 then 1 / 10 ^ digitsToNat ed else 10 ^ digitsToNat ed))
      else none

-- ── config.rs: data model ───────────────────────────────────────────────────

/-- `config.rs`: a named integer rectangle. -/
structure Region where
  name : String
  x : ℤ
  y : ℤ
  width : ℤ
  height : ℤ
deriving DecidableEq, Repr

/-- `config.rs`: a timestamp with the regions positioned there. -/
structure Keyframe where
  timestamp : ℚ
  regions : List Region
deriving DecidableEq, Repr

/-- `config.rs`: per-region content expectations (all fields optional). -/
structure RegionExpectation where
  numeric : Bool
  min : Option ℚ
  max : Option ℚ
  decimal_places : Option ℕ
  total_digits : Option ℕ
  max_deviation : Option ℚ
deriving DecidableEq, Repr

/-- `config.rs`: the region configuration (expectations as an assoc list). -/
structure RegionConfig where
  video_path : String
  keyframes : List Keyframe
  expectations : List (String × RegionExpectation)
deriving DecidableEq, Repr

/-- `config.rs::lerp_i32`: `(a as f64 + (b as f64 - a as f64) * t).round() as i32`. -/
def lerp_i32 (a b : ℤ) (t : ℚ) : ℤ :=
  rustRound ((a : ℚ) + ((b : ℚ) - (a : ℚ)) * t)

/-- `config.rs::lerp_region`. -/
def lerp_region (a b : Region) (t : ℚ) : Region :=
  { name := a.name
    x := lerp_i32 a.x b.x t
    y := lerp_i32 a.y b.y t
    width := lerp_i32 a.width b.width t
    height := lerp_i32 a.height b.height t }

/-- `config.rs::interpolate_keyframes`.  The `HashMap` built from `b.regions`
keeps the last occurrence of a duplicated name, hence the `reverse` before
`find?`; `contains_key` on the map over `a.regions` is a plain `any`. -/
def interpolate_keyframes (a b : Keyframe) (t : ℚ) : List Region :=
  (a.regions.map fun ra =>
    lerp_region ra (((b.regions.reverse.find? fun rb => rb.name == ra.name).getD ra)) t)
  ++ b.regions.filter fun rb => !(a.regions.any fun ra2 => ra2.name == rb.name)

/-- The bracketing-pair search loop inside `config.rs::get_regions_at`:
the first adjacent pair `(a, b)` with `a.timestamp ≤ ts ≤ b.timestamp`. -/
def findBracket : List Keyframe → ℚ → Option (Keyframe × Keyframe)
  | a :: b :: rest, ts =>
    if a.timestamp ≤ ts ∧ ts ≤ b.timestamp then some (a, b)
    else findBracket (b :: rest) ts
  | _, _ => none

/-- `config.rs::RegionConfig::get_regions_at`. -/
def get_regions_at (cfg : RegionConfig) (ts : ℚ) : List Region :=
  match cfg.keyframes with
  | [] => []
  | k :: ks =>
    if ts ≤ k.timestamp then k.regions
    else
      let last := (k :: ks).getLast (List.cons_ne_nil k ks)
      if last.timestamp ≤ ts then last.regions
      else
        match findBracket (k :: ks) ts with
        | some (a, b) =>
          interpolate_keyframes a b ((ts - a.timestamp) / (b.timestamp - a.timestamp))
        | none => []

-- ── ocr.rs: number cleaning and validation scoring ──────────────────────────

/-- `ocr.rs::clean_number`, step 1: comma becomes decimal point, apostrophe
thousands separators are dropped. -/
def commaApos (l : List Char) : List Char :=
  (l.map fun c => if c = ',' then '.' else c).filter fun c => c ≠ '\''

/-- `ocr.rs::clean_number`, step 2: common OCR letter/digit confusions. -/
def ocrSubst (c : Char) : Char :=
  if c = 'O' then '0'
  else if c = 'l' ∨ c = 'I' then '1'
  else if c = 'S' then '5'
  else c

/-- `ocr.rs::clean_number`, final step: extract the first number-like token
(optional minus sign, digit run, optional single decimal point with a digit
run).  Multi-byte characters contribute no bytes matching `-`/digit/`.`,
so scanning characters agrees with the byte scan in the source. -/
def numTail (l : List Char) : List Char :=
  let d1 := l.takeWhile Char.isDigit
  match l.dropWhile Char.isDigit with
  | '.' :: r2 => d1 ++ '.' :: r2.takeWhile Char.isDigit
  | _ => d1

/-- The token-extraction loop of `ocr.rs::clean_number`. -/
def extractToken : List Char → List Char
  | [] => []
  | c :: rest =>
    if c = '-' then '-' :: numTail rest
    else if c.isDigit then numTail (c :: rest)
    else extractToken rest

/-- `ocr.rs::clean_number`. -/
def clean_number (text : String) : String :=
  let line := rustTrimL (firstLine text.toList)
  let s1 := commaApos line
  let s2 := s1.map ocrSubst
  let s3 := s2.filter fun c => c ≠ '°' ∧ c ≠ ' '
  String.mk (extractToken s3)

/-- `ocr.rs::count_decimal_places`: digits after the first `.` (0 if none). -/
def count_decimal_places (s : String) : ℕ :=
  match (s.toList.dropWhile fun c => c ≠ '.') with
  | [] => 0
  | _ :: rest => rest.length

/-- `ocr.rs::count_total_digits`: number of ASCII digits in the string. -/
def count_total_digits (s : String) : ℕ :=
  s.toList.countP Char.isDigit

/-- `ocr.rs::validation_score`: multiplicative confidence penalty. -/
def validation_score (text : String) (exp : RegionExpectation) (prev_value : Option ℚ) : ℚ :=
  if exp.numeric = false then 1
  else
    let cleaned := clean_number text
    match parseF64 cleaned with
    | none => 1 / 10
    | some value =>
      let s1 : ℚ :=
        match exp.min with
        | some m => if value < m then 1 * (2 / 5) else 1
        | none => 1
      let s2 : ℚ :=
        match exp.max with
        | some m => if m < value then s1 * (2 / 5) else s1
        | none => s1
      let s3 : ℚ :=
        match exp.decimal_places with
        | some dp => if count_decimal_places cleaned ≠ dp then s2 * (13 / 20) else s2
        | none => s2
      let s4 : ℚ :=
        match exp.total_digits with
        | some td => if count_total_digits cleaned ≠ td then s3 * (13 / 20) else s3
        | none => s3
      match exp.max_deviation, prev_value with
      | some md, some prev => if 0 < md ∧ md < |value - prev| then s4 * (1 / 2) else s4
      | _, _ => s4

/-- `ocr.rs::passes_hard_constraints`: numeric parseability, min/max range
and max-deviation (the latter only when `max_deviation > 0`). -/
def passes_hard_constraints (text : String) (exp : RegionExpectation) (prev_value : Option ℚ) : Bool :=
  if exp.numeric = false then true
  else
    match parseF64 (clean_number text) with
    | none => false
    | some v =>
      let in_range :=
        (match exp.min with
         | some m => decide (m ≤ v)
         | none => true)
        && (match exp.max with
            | some m => decide (v ≤ m)
            | none => true)
      let ok_deviation :=
        match exp.max_deviation, prev_value with
        | some md, some pv => if 0 < md then decide (|v - pv| ≤ md) else true
        | _, _ => true
      in_range && ok_deviation

-- ── ocr.rs: candidate selection and orchestration ───────────────────────────

/-- `ocr.rs::OcrResult`. -/
structure OcrResult where
  text : String
  confidence : ℚ
  preview_b64 : String
  engine_name : String
deriving DecidableEq, Repr

/-- Rust `Iterator::max_by` over a non-empty list (first element `a`, rest
`l`), comparing by `f`; on ties the later element wins, exactly as
`max_by` specifies. -/
def maxByQ {α : Type} (f : α → ℚ) (a : α) (l : List α) : α :=
  l.foldl (fun acc x => if f x < f acc then acc else x) a

/-- Effective score used by `ocr.rs::best_result`:
`confidence × validation_score` (1 when no expectation is declared). -/
def result_score (expectation : Option RegionExpectation) (prev_value : Option ℚ)
    (r : OcrResult) : ℚ :=
  r.confidence * ((expectation.map fun e => validation_score r.text e prev_value).getD 1)

/-- `ocr.rs::best_result`: numeric-parseable candidates beat non-numeric
ones when `filter_numeric` is set; the highest combined score wins. -/
def best_result (results : List OcrResult) (filter_numeric : Bool)
    (expectation : Option RegionExpectation) (prev_value : Option ℚ) : Option OcrResult :=
  match results with
  | [] => none
  | r :: rs =>
    if filter_numeric then
      match (r :: rs).filter fun x => (parseF64 (clean_number x.text)).isSome with
      | [] => some (maxByQ (result_score expectation prev_value) r rs)
      | n :: ns => some (maxByQ (result_score expectation prev_value) n ns)
    else some (maxByQ (result_score expectation prev_value) r rs)

/-- `ocr.rs::best_result_constrained`: restrict to candidates passing hard
constraints; `none` when no candidate passes, so the caller can emit an
empty reading. -/
def best_result_constrained (results : List OcrResult) (filter_numeric : Bool)
    (expectation : Option RegionExpectation) (prev_value : Option ℚ) : Option OcrResult :=
  match expectation with
  | none => best_result results filter_numeric none prev_value
  | some exp =>
    match results.filter fun r => passes_hard_constraints r.text exp prev_value with
    | [] => none
    | v :: vs =>
      if filter_numeric then
        match (v :: vs).filter fun r => (parseF64 (clean_number r.text)).isSome with
        | [] => some (maxByQ (fun r => r.confidence * validation_score r.text exp prev_value) v vs)
        | n :: ns => some (maxByQ (fun r => r.confidence * validation_score r.text exp prev_value) n ns)
      else some (maxByQ (fun r => r.confidence * validation_score r.text exp prev_value) v vs)

/-- The 5-tuple `(value, confidence, raw_text, preview_b64, engine_name)`
returned by `ocr.rs::read_region`. -/
structure ReadResult where
  value : String
  confidence : ℚ
  raw_text : String
  preview_b64 : String
  engine_name : String
deriving DecidableEq, Repr

/-- `ocr.rs::make_result`. -/
def make_result (r : OcrResult) (filter_numeric : Bool) : ReadResult :=
  { value := if filter_numeric then clean_number r.text else rustTrim r.text
    confidence := r.confidence
    raw_text := rustTrim r.text
    preview_b64 := r.preview_b64
    engine_name := r.engine_name }

/-- The all-empty sentinel `read_region` returns when nothing is eligible. -/
def emptyReadResult : ReadResult :=
  { value := "", confidence := 0, raw_text := "", preview_b64 := "", engine_name := "" }

/-- `ocr.rs::read_region` from the point where the candidate pools exist:
`priority_results` are the collected priority-tier outputs; the fallback
tier's outputs `fallback_results` are consulted only when the fast path
does not fire, and the returned flag records whether that happened
(`true` = the fallback engines were invoked).  The geometry clamp and the
crop construction that precede this logic in the source act on the frame
buffer only and produce the identical crop for every backend. -/
def read_region (priority_results fallback_results : List OcrResult)
    (fast_threshold : ℚ) (expectation : Option RegionExpectation)
    (prev_value : Option ℚ) : ReadResult × Bool :=
  let filter_numeric := (expectation.map fun e => e.numeric).getD false
  let fastPath : Option OcrResult :=
    match best_result_constrained priority_results filter_numeric expectation prev_value with
    | some best =>
      let v_score := (expectation.map fun e => validation_score best.text e prev_value).getD 1
      let eff_conf := best.confidence * v_score
      let numeric_ok := !filter_numeric || (parseF64 (clean_number best.text)).isSome
      if fast_threshold ≤ eff_conf ∧ numeric_ok = true then some best else none
    | none => none
  match fastPath with
  | some best => (make_result best filter_numeric, false)
  | none =>
    match best_result_constrained (priority_results ++ fallback_results)
        filter_numeric expectation prev_value with
    | some w => (make_result w filter_numeric, true)
    | none => (emptyReadResult, true)

/-- Hard-constraint eligibility as `read_region` applies it: vacuous when no
expectation is declared for the region. -/
def passesOpt (text : String) (expectation : Option RegionExpectation)
    (prev_value : Option ℚ) : Bool :=
  match expectation with
  | none => true
  | some exp => passes_hard_constraints text exp prev_value

-- ── ocr/tesseract.rs: per-PSM text gate ─────────────────────────────────────

/-- `tesseract.rs::try_ocr` after the native API produced its raw text and
mean confidence (each `none` models the corresponding API call failing):
trimmed-empty text is rejected, confidence is floored at 0 and normalised
from the 0–100 scale. -/
def try_ocr (apiText : Option String) (apiConf : Option ℤ) : Option (String × ℚ) :=
  match apiText with
  | none => none
  | some raw =>
    let trimmed := rustTrim raw
    if trimmed = "" then none
    else
      match apiConf with
      | none => none
      | some c => some (trimmed, ((max c 0 : ℤ) : ℚ) / 100)

/-- `tesseract.rs::run_ocr_bytes`: try every page-segmentation mode (each
entry of `attempts` is one PSM's API outcome) and keep the
highest-confidence surviving hypothesis; `none` when none survives. -/
def run_ocr_bytes (attempts : List (Option String × Option ℤ)) : Option (String × ℚ) :=
  match attempts.filterMap fun a => try_ocr a.1 a.2 with
  | [] => none
  | r :: rs => some (maxByQ (fun p => p.2) r rs)

-- ── ocr/tesseract.rs: CLAHE clip-and-redistribute ───────────────────────────

/-- The 256-bin intensity histogram of one CLAHE tile (`tesseract.rs::
tile_mapping`, histogram loop); pixels are 8-bit intensities. -/
def tileHist (pixels : List (Fin 256)) : List ℕ :=
  (List.range 256).map fun v => pixels.countP fun p => (p : ℕ) == v

/-- The clip limit of `tesseract.rs::tile_mapping`:
`((tile_area as f32 / 256.0) * clip_limit_factor).max(1.0) as u64`, i.e.
the product floored to an integer but never below 1.  (For the tile sizes
the code uses, the `f32` product is exact.) -/
def tile_clip_limit (area : ℕ) (factor : ℚ) : ℕ :=
  max 1 (⌊(area : ℚ) / 256 * factor⌋).toNat

/-- Clip threshold as claim C9 words it — `clipFactor × (tileArea / 256)`
with no lower floor.  Stated only to compare against `tile_clip_limit`. -/
def tile_clip_limit_claimed (area : ℕ) (factor : ℚ) : ℕ :=
  (⌊(area : ℚ) / 256 * factor⌋).toNat

/-- The clipping loop of `tesseract.rs::tile_mapping`: cap every bin at
`clip`, accumulating the total excess that was removed. -/
def clipPass (hist : List ℕ) (clip : ℕ) : List ℕ × ℕ :=
  hist.foldl
    (fun acc h =>
      if clip < h then (acc.1 ++ [clip], acc.2 + (h - clip)) else (acc.1 ++ [h], acc.2))
    ([], 0)

/-- The redistribution loop of `tesseract.rs::tile_mapping`: every bin gains
`excess / 256`, and each of the first `excess % 256` bins one extra count. -/
def redistribute (hist : List ℕ) (excess : ℕ) : List ℕ :=
  hist.enum.map fun p => p.2 + excess / 256 + if p.1 < excess % 256 then 1 else 0

/-- Clip-and-redistribute step of `tesseract.rs::tile_mapping`. -/
def clip_and_redistribute (hist : List ℕ) (clip : ℕ) : List ℕ :=
  redistribute (clipPass hist clip).1 (clipPass hist clip).2

-- ── ocr/oar.rs: neural-predictor result gate ────────────────────────────────

/-- `oar.rs::OarRecognizer::recognize` after the predictor ran
(`predictOk = false` models `predict` returning an error): the first
predicted text is kept, a missing score defaults to 0, and only the
*exactly empty* text is rejected — the text is not trimmed first. -/
def oar_recognize (predictOk : Bool) (texts : List String) (scores : List ℚ)
    (preview : String) (engine : String) : Option OcrResult :=
  if predictOk = false then none
  else
    match texts with
    | [] => none
    | text :: _ =>
      let score := scores.headD 0
      if text = "" then none
      else some { text := text, confidence := score, preview_b64 := preview, engine_name := engine }

-- ── processor.rs: previous-accepted-value bookkeeping ───────────────────────

/-- `HashMap::insert` on the name-keyed previous-value map. -/
def insertPrev (m : List (String × ℚ)) (k : String) (v : ℚ) : List (String × ℚ) :=
  if m.any fun p => p.1 == k then m.map fun p => if p.1 == k then (k, v) else p
  else m ++ [(k, v)]

/-- `HashMap::get` on the previous-value map. -/
def lookupPrev (m : List (String × ℚ)) (k : String) : Option ℚ :=
  (m.find? fun p => p.1 == k).map fun p => p.2

/-- The end-of-frame update loop of `processor.rs::extract` (lines 338–342):
each outcome is `(region_name, value)`; only values that parse as floats
overwrite the per-region previous-accepted-value entry. -/
def updatePrevValues (prev : List (String × ℚ))
    (outcomes : List (String × String)) : List (String × ℚ) :=
  outcomes.foldl
    (fun acc m =>
      match parseF64 m.2 with
      | some v => insertPrev acc m.1 v
      | none => acc)
    prev

-- ── Concrete configurations used to exercise interpolation edge cases ───────

/-- Three keyframes; the region `r` exists only at the first keyframe, so it
lingers through the bracket ending at the (region-less) second keyframe. -/
def cfgLinger : RegionConfig :=
  ⟨"", [⟨0, [⟨"r", 0, 0, 1, 1⟩]⟩, ⟨1, []⟩, ⟨2, []⟩], []⟩

/-- Three keyframes; the region `r` exists at the first and last keyframes
but not at the middle one. -/
def cfgAppear : RegionConfig :=
  ⟨"", [⟨0, [⟨"r", 5, 5, 5, 5⟩]⟩, ⟨10, []⟩, ⟨20, [⟨"r", 1, 1, 2, 2⟩]⟩], []⟩

/-- A single keyframe that carries no regions at all. -/
def cfgNoRegions : RegionConfig := ⟨"", [⟨0, []⟩], []⟩

/-- The spec's end-to-end scenario: one region at two keyframes. -/
def cfgPair : RegionConfig :=
  ⟨"", [⟨0, [⟨"g", 0, 0, 100, 50⟩]⟩, ⟨10, [⟨"g", 0, 0, 200, 100⟩]⟩], []⟩

-- ═══════════════════════════════ Theorems ═══════════════════════════════════

/-- C7: `clean_number` turns commas into decimal points, removes apostrophe
thousands separators, corrects the O→0, l→1, I→1, S→5 OCR confusions, and
extracts the first number-like token (optional minus sign, digits, optional
single decimal point), discarding surrounding non-numeric text; in
particular `clean_number "1'234,56" = "1234.56"`. -/
theorem clean_number_normalisation :
    clean_number "1'234,56" = "1234.56" ∧
    clean_number "OIlS" = "0115" ∧
    clean_number "abc 12.5 xyz" = "12.5" ∧
    clean_number "T: -3,5°C" = "-3.5" ∧
    clean_number "1.2.3" = "1.2" := by
  decide

/-- A conditional penalty `if c then s * k else s` stays in `(0, 1]` when both
`s` and the factor `k` do. -/
lemma ite_unit (c : Prop) [Decidable c] (s k : ℚ) (hs : 0 < s ∧ s ≤ 1)
    (hk : 0 < k ∧ k ≤ 1) :
    0 < (if c then s * k else s) ∧ (if c then s * k else s) ≤ 1 := by
  split_ifs with h
  · exact ⟨mul_pos hs.1 hk.1, (mul_le_of_le_one_right hs.1.le hk.2).trans hs.2⟩
  · exact hs

set_option maxHeartbeats 2000000 in
/-- C3: for every text, expectation and optional previous value, the
validation score is strictly positive and at most 1. -/
theorem validation_score_pos_le_one (text : String) (exp : RegionExpectation)
    (prev : Option ℚ) :
    0 < validation_score text exp prev ∧ validation_score text exp prev ≤ 1 := by
  unfold validation_score
  rcases exp with ⟨num, mn, mx, dp, td, md⟩
  dsimp only
  cases num with
  | false => norm_num
  | true =>
    cases hp : parseF64 (clean_number text) with
    | none => norm_num
    | some v =>
      rcases mn with _ | m <;> rcases mx with _ | M <;> rcases dp with _ | d <;>
        rcases td with _ | t <;> rcases md with _ | D <;> rcases prev with _ | p <;>
        dsimp only <;>
        repeat
          first
          | apply ite_unit
          | exact ⟨one_pos, le_refl 1⟩
          | norm_num

-- ── Selection lemmas ────────────────────────────────────────────────────────

lemma maxByQ_cons {α : Type} (f : α → ℚ) (a x : α) (xs : List α) :
    maxByQ f a (x :: xs) = maxByQ f (if f x < f a then a else x) xs := rfl

lemma maxByQ_mem {α : Type} (f : α → ℚ) (a : α) (l : List α) :
    maxByQ f a l ∈ a :: l := by
  induction l generalizing a with
  | nil => exact List.mem_singleton.mpr rfl
  | cons x xs ih =>
    rw [maxByQ_cons]
    rcases List.mem_cons.mp (ih (if f x < f a then a else x)) with h | h
    · rw [h]
      split
      · exact List.mem_cons_self _ _
      · exact List.mem_cons_of_mem _ (List.mem_cons_self _ _)
    · exact List.mem_cons_of_mem _ (List.mem_cons_of_mem _ h)

lemma maxByQ_le {α : Type} (f : α → ℚ) (a : α) (l : List α) :
    ∀ y ∈ a :: l, f y ≤ f (maxByQ f a l) := by
  induction l generalizing a with
  | nil =>
    intro y hy
    rw [List.mem_singleton.mp hy]
    exact le_refl _
  | cons x xs ih =>
    intro y hy
    rw [maxByQ_cons]
    have hstep : f y ≤ f (if f x < f a then a else x) ∨ y ∈ xs := by
      rcases List.mem_cons.mp hy with rfl | h
      · left
        split
        · exact le_refl _
        · exact le_of_not_lt (by assumption)
      · rcases List.mem_cons.mp h with rfl | h2
        · left
          split
          · exact le_of_lt (by assumption)
          · exact le_refl _
        · right
          exact h2
    rcases hstep with h | h
    · exact h.trans (ih _ _ (List.mem_cons_self _ _))
    · exact ih _ _ (List.mem_cons_of_mem _ h)

/-- When the expectation demands a number, any candidate passing the hard
constraints has a parseable cleaned text. -/
lemma passes_parse {text : String} {exp : RegionExpectation} {prev : Option ℚ}
    (hn : exp.numeric = true)
    (hp : passes_hard_constraints text exp prev = true) :
    (parseF64 (clean_number text)).isSome = true := by
  unfold passes_hard_constraints at hp
  rw [hn] at hp
  simp only [Bool.true_eq_false, if_false] at hp
  cases hq : parseF64 (clean_number text) with
  | none => rw [hq] at hp; exact absurd hp (by simp)
  | some v => simp

/-- `best_result_constrained` with a declared expectation returns an eligible
candidate whose effective score dominates any given eligible candidate. -/
lemma best_result_constrained_spec (results : List OcrResult) (exp : RegionExpectation)
    (prev : Option ℚ) (c : OcrResult) (hc : c ∈ results)
    (hp : passes_hard_constraints c.text exp prev = true) :
    ∃ b, best_result_constrained results exp.numeric (some exp) prev = some b ∧
      b ∈ results ∧ passes_hard_constraints b.text exp prev = true ∧
      c.confidence * validation_score c.text exp prev ≤
        b.confidence * validation_score b.text exp prev := by
  unfold best_result_constrained
  have hcv : c ∈ results.filter fun r => passes_hard_constraints r.text exp prev :=
    List.mem_filter.mpr ⟨hc, hp⟩
  cases hv : results.filter fun r => passes_hard_constraints r.text exp prev with
  | nil => rw [hv] at hcv; cases hcv
  | cons v vs =>
    rw [hv] at hcv
    have hsub : ∀ y ∈ v :: vs, y ∈ results ∧ passes_hard_constraints y.text exp prev = true := by
      intro y hy
      have : y ∈ results.filter fun r => passes_hard_constraints r.text exp prev := hv ▸ hy
      exact ⟨(List.mem_filter.mp this).1, (List.mem_filter.mp this).2⟩
    set score := fun r : OcrResult => r.confidence * validation_score r.text exp prev with hscore
    have hmain : maxByQ score v vs ∈ results ∧
        passes_hard_constraints (maxByQ score v vs).text exp prev = true ∧
        score c ≤ score (maxByQ score v vs) :=
      ⟨(hsub _ (maxByQ_mem score v vs)).1, (hsub _ (maxByQ_mem score v vs)).2,
        maxByQ_le score v vs c hcv⟩
    cases hn : exp.numeric with
    | false =>
      exact ⟨maxByQ score v vs, by simp [hv], hmain.1, hmain.2.1, hmain.2.2⟩
    | true =>
      have hall : (v :: vs).filter (fun r => (parseF64 (clean_number r.text)).isSome) = v :: vs :=
        List.filter_eq_self.mpr fun y hy => passes_parse hn (hsub y hy).2
      exact ⟨maxByQ score v vs, by simp [hv, hall], hmain.1, hmain.2.1, hmain.2.2⟩

/-- `best_result` with no expectation and no numeric filter returns a
candidate whose effective score dominates any given candidate. -/
lemma best_result_none_spec (results : List OcrResult) (prev : Option ℚ)
    (c : OcrResult) (hc : c ∈ results) :
    ∃ b, best_result results false none prev = some b ∧ b ∈ results ∧
      result_score none prev c ≤ result_score none prev b := by
  cases results with
  | nil => cases hc
  | cons r rs =>
    refine ⟨maxByQ (result_score none prev) r rs, by simp [best_result], ?_, ?_⟩
    · exact maxByQ_mem _ r rs
    · exact maxByQ_le _ r rs c hc

-- ── C1 ──────────────────────────────────────────────────────────────────────

/-- C1: when no candidate from either tier passes the hard constraints
(vacuously: when a declared expectation makes every candidate ineligible, or
no candidate exists at all), `read_region` returns the all-empty result,
regardless of the candidates' confidences. -/
theorem read_region_empty_of_none_eligible (pr fb : List OcrResult) (th : ℚ)
    (exp : Option RegionExpectation) (prev : Option ℚ)
    (h : ∀ r ∈ pr ++ fb, passesOpt r.text exp prev = false) :
    (read_region pr fb th exp prev).1 = emptyReadResult := by
  cases exp with
  | none =>
    have hpr : pr = [] := by
      cases hp : pr with
      | nil => rfl
      | cons a l =>
        have := h a (by rw [hp]; exact List.mem_append_left _ (List.mem_cons_self _ _))
        simp [passesOpt] at this
    have hfb : fb = [] := by
      cases hf : fb with
      | nil => rfl
      | cons a l =>
        have := h a (by rw [hf]; exact List.mem_append_right _ (List.mem_cons_self _ _))
        simp [passesOpt] at this
    subst hpr; subst hfb
    rfl
  | some e =>
    have h1 : pr.filter (fun r => passes_hard_constraints r.text e prev) = [] :=
      List.filter_eq_nil_iff.mpr fun a ha => by
        have := h a (List.mem_append_left _ ha)
        simp only [passesOpt] at this
        simp [this]
    have h2 : (pr ++ fb).filter (fun r => passes_hard_constraints r.text e prev) = [] :=
      List.filter_eq_nil_iff.mpr fun a ha => by
        have := h a ha
        simp only [passesOpt] at this
        simp [this]
    simp only [read_region, best_result_constrained, h1, h2]

-- ── C2 ──────────────────────────────────────────────────────────────────────

/-- C2: if some priority-tier candidate passes the hard constraints, has
effective score at least `fast_threshold`, and (when the expectation is
numeric) its cleaned text parses, then `read_region` short-circuits: the
fallback tier is never evaluated (flag `false`) and the winning priority
candidate — itself eligible with effective score at least the threshold —
is returned. -/
theorem read_region_fast_path (pr fb : List OcrResult) (th : ℚ)
    (exp : Option RegionExpectation) (prev : Option ℚ) (c : OcrResult)
    (hc : c ∈ pr)
    (hpass : passesOpt c.text exp prev = true)
    (hscore : th ≤ result_score exp prev c) :
    (read_region pr fb th exp prev).2 = false ∧
    ∃ b, b ∈ pr ∧ passesOpt b.text exp prev = true ∧
      th ≤ result_score exp prev b ∧
      (read_region pr fb th exp prev).1 =
        make_result b ((exp.map fun e => e.numeric).getD false) := by
  cases exp with
  | none =>
    obtain ⟨b, hb, hbm, hble⟩ := best_result_none_spec pr prev c hc
    have hcond : th ≤ b.confidence := by
      have hh : result_score none prev b = b.confidence * 1 := rfl
      have h2 := le_trans hscore hble
      rw [hh] at h2
      simpa using h2
    have hfast : (read_region pr fb th none prev) = (make_result b false, false) := by
      simp only [read_region, best_result_constrained, Option.map_none', Option.getD_none, hb]
      simp [hcond]
    rw [hfast]
    exact ⟨rfl, b, hbm, rfl, le_trans hscore hble, rfl⟩
  | some e =>
    simp only [passesOpt] at hpass
    obtain ⟨b, hb, hbm, hbp, hble⟩ := best_result_constrained_spec pr e prev c hc hpass
    have hrs : result_score (some e) prev c ≤ result_score (some e) prev b := by
      simpa [result_score] using hble
    have hth : th ≤ b.confidence * validation_score b.text e prev := by
      have := le_trans hscore hrs
      simpa [result_score] using this
    have hnum : (!e.numeric || (parseF64 (clean_number b.text)).isSome) = true := by
      cases hn : e.numeric with
      | false => simp
      | true => simp [passes_parse hn hbp]
    have hfast : (read_region pr fb th (some e) prev) = (make_result b e.numeric, false) := by
      simp only [read_region, Option.map_some', Option.getD_some, hb]
      simp [hth, hnum]
    rw [hfast]
    exact ⟨rfl, b, hbm, by simp [passesOpt, hbp], by simpa [result_score] using hth, by simp⟩

-- ── C8 ──────────────────────────────────────────────────────────────────────

/-- Original claim C8 is false for the neural backend: a whitespace-only
predicted text is empty after trimming, yet `oar.rs` only rejects the
*exactly empty* string, so `recognize` still returns a result. -/
theorem oar_whitespace_text_counterexample :
    rustTrim " " = "" ∧
    oar_recognize true [" "] [1 / 2] "p" "oar-ocr/rgb" =
      some { text := " ", confidence := 1 / 2, preview_b64 := "p", engine_name := "oar-ocr/rgb" } := by
  constructor
  · rfl
  · rfl

/-- C8 (amended): a classical-OCR hypothesis whose raw text is empty after
trimming contributes nothing, and `recognize` returns `none` when every
page-segmentation attempt does; the neural backend returns `none` only when
the predicted text is *exactly* the empty string (it does not trim). -/
theorem empty_text_is_no_result :
    (∀ raw conf, rustTrim raw = "" → try_ocr (some raw) conf = none) ∧
    (∀ attempts : List (Option String × Option ℤ),
      (∀ a ∈ attempts, ∀ raw, a.1 = some raw → rustTrim raw = "") →
      run_ocr_bytes attempts = none) ∧
    (∀ (ok : Bool) (rest : List String) (scores : List ℚ) (preview engine : String),
      oar_recognize ok ("" :: rest) scores preview engine = none) := by
  refine ⟨?_, ?_, ?_⟩
  · intro raw conf h
    simp [try_ocr, h]
  · intro attempts h
    unfold run_ocr_bytes
    have : attempts.filterMap (fun a => try_ocr a.1 a.2) = [] := by
      apply List.filterMap_eq_nil_iff.mpr
      intro a ha
      cases hr : a.1 with
      | none => rfl
      | some raw =>
        have htrim := h a ha raw hr
        simp [try_ocr, htrim]
    rw [this]
  · intro ok rest scores preview engine
    cases ok <;> rfl

-- ── C10 ─────────────────────────────────────────────────────────────────────

lemma find_map_ne (ps : List (String × ℚ)) (k r : String) (v : ℚ) (h : k ≠ r) :
    Option.map (fun p => p.2)
      (List.find? (fun p => p.1 == r) (ps.map fun p => if p.1 == k then (k, v) else p)) =
    Option.map (fun p => p.2) (List.find? (fun p => p.1 == r) ps) := by
  induction ps with
  | nil => rfl
  | cons p ps ih =>
    by_cases hpk : p.1 = k
    · have h2 : (p.1 == r) = false := by simp [hpk, h]
      have h3 : (k == r) = false := by simp [h]
      rw [List.map_cons, if_pos (beq_iff_eq.mpr hpk)]
      simp only [List.find?_cons, h2, h3]
      exact ih
    · rw [List.map_cons, if_neg (by simp [hpk])]
      cases hpr : (p.1 == r) with
      | true => simp only [List.find?_cons, hpr]
      | false =>
        simp only [List.find?_cons, hpr]
        exact ih

lemma lookupPrev_insert_ne (m : List (String × ℚ)) (k r : String) (v : ℚ)
    (h : k ≠ r) : lookupPrev (insertPrev m k v) r = lookupPrev m r := by
  unfold insertPrev lookupPrev
  split
  · exact find_map_ne m k r v h
  · rw [List.find?_append]
    have h3 : List.find? (fun p => p.1 == r) [(k, v)] = none := by
      simp only [List.find?_cons]
      have : (k == r) = false := by simp [h]
      rw [this]
      rfl
    rw [h3]
    cases m.find? fun p => p.1 == r <;> rfl

/-- C10: the per-region previous-accepted-value entry is overwritten only by
a value string that parses as a float; when every outcome for the region is
unparseable (including the empty sentinel), the entry keeps its prior
value. -/
theorem prev_value_update (prev : List (String × ℚ))
    (outcomes : List (String × String)) (r : String) :
    ((∀ m ∈ outcomes, m.1 = r → parseF64 m.2 = none) →
      lookupPrev (updatePrevValues prev outcomes) r = lookupPrev prev r) ∧
    (lookupPrev (updatePrevValues prev outcomes) r ≠ lookupPrev prev r →
      ∃ m ∈ outcomes, m.1 = r ∧ (parseF64 m.2).isSome = true) := by
  have main : ∀ (prev : List (String × ℚ)),
      (∀ m ∈ outcomes, m.1 = r → parseF64 m.2 = none) →
      lookupPrev (updatePrevValues prev outcomes) r = lookupPrev prev r := by
    induction outcomes with
    | nil => intro prev _; rfl
    | cons m ms ih =>
      intro prev h
      have hstep : updatePrevValues prev (m :: ms) =
          updatePrevValues
            (match parseF64 m.2 with
             | some v => insertPrev prev m.1 v
             | none => prev) ms := rfl
      rw [hstep]
      cases hp : parseF64 m.2 with
      | none =>
        show lookupPrev (updatePrevValues prev ms) r = lookupPrev prev r
        exact ih prev fun x hx => h x (List.mem_cons_of_mem _ hx)
      | some v =>
        have hne : m.1 ≠ r := by
          intro he
          exact absurd (h m (List.mem_cons_self _ _) he) (by rw [hp]; simp)
        show lookupPrev (updatePrevValues (insertPrev prev m.1 v) ms) r = lookupPrev prev r
        rw [ih (insertPrev prev m.1 v) fun x hx => h x (List.mem_cons_of_mem _ hx)]
        exact lookupPrev_insert_ne prev m.1 r v hne
  refine ⟨main prev, ?_⟩
  intro hne
  by_contra hno
  push_neg at hno
  refine hne (main prev fun m hm hr => ?_)
  have := hno m hm hr
  cases hp : parseF64 m.2 with
  | none => rfl
  | some v => rw [hp] at this; simp at this

-- ── Witnesses ───────────────────────────────────────────────────────────────

/-- Witness for C1: a single high-confidence but unparseable priority
candidate under a numeric expectation yields the empty sentinel. -/
theorem read_region_empty_of_none_eligible_witness :
    passesOpt "abc" (some ⟨true, none, none, none, none, none⟩) none = false ∧
    (read_region
      [{ text := "abc", confidence := 9 / 10, preview_b64 := "p", engine_name := "e" }] []
      (1 / 2) (some ⟨true, none, none, none, none, none⟩) none).1 = emptyReadResult :=
  ⟨by decide,
    read_region_empty_of_none_eligible
      [{ text := "abc", confidence := 9 / 10, preview_b64 := "p", engine_name := "e" }] []
      (1 / 2) (some ⟨true, none, none, none, none, none⟩) none (by decide)⟩

/-- Witness for C2: with no declared expectation every candidate is
eligible, a full-confidence priority candidate clears threshold 0, and the
fallback candidate is never consulted. -/
theorem read_region_fast_path_witness :
    passesOpt "hi" none none = true ∧
    (0 : ℚ) ≤ result_score none none
      { text := "hi", confidence := 1, preview_b64 := "pv", engine_name := "eng" } ∧
    (read_region
      [{ text := "hi", confidence := 1, preview_b64 := "pv", engine_name := "eng" }]
      [{ text := "x", confidence := 1, preview_b64 := "", engine_name := "f" }]
      0 none none).2 = false :=
  ⟨rfl, by norm_num [result_score],
    (read_region_fast_path
      [{ text := "hi", confidence := 1, preview_b64 := "pv", engine_name := "eng" }]
      [{ text := "x", confidence := 1, preview_b64 := "", engine_name := "f" }]
      0 none none
      { text := "hi", confidence := 1, preview_b64 := "pv", engine_name := "eng" }
      (List.mem_cons_self _ _) rfl (by norm_num [result_score])).1⟩

/-- Witness for C8 (amended): concrete whitespace and empty-text inputs. -/
theorem empty_text_is_no_result_witness :
    rustTrim " \t" = "" ∧
    try_ocr (some " \t") (some 50) = none ∧
    run_ocr_bytes [(some " ", some 10)] = none ∧
    oar_recognize true [""] [] "p" "e" = none :=
  ⟨by decide,
    empty_text_is_no_result.1 " \t" (some 50) (by decide),
    empty_text_is_no_result.2.1 [(some " ", some 10)] (by decide),
    empty_text_is_no_result.2.2 true [] [] "p" "e"⟩

/-- Witness for C10: an empty-sentinel outcome leaves the previous value
for its region untouched. -/
theorem prev_value_update_witness :
    parseF64 "" = none ∧
    lookupPrev (updatePrevValues [("g", 5)] [("g", "")]) "g" = lookupPrev [("g", 5)] "g" :=
  ⟨by decide, (prev_value_update [("g", 5)] [("g", "")] "g").1 (by decide)⟩

-- ── Interpolation lemmas ────────────────────────────────────────────────────

lemma rustRound_intCast (n : ℤ) : rustRound (n : ℚ) = n := by
  unfold rustRound
  split_ifs with h
  · rw [show ((n : ℚ) + 1 / 2) = (n : ℤ) + (1 / 2 : ℚ) by ring,
      Int.floor_int_add]
    norm_num
  · rw [show ((n : ℚ) - 1 / 2) = (-(1 / 2) : ℚ) + (n : ℤ) by ring,
      Int.ceil_add_int]
    norm_num

lemma lerp_i32_self (a : ℤ) (t : ℚ) : lerp_i32 a a t = a := by
  unfold lerp_i32
  rw [show ((a : ℚ) + ((a : ℚ) - (a : ℚ)) * t) = (a : ℚ) by ring]
  exact rustRound_intCast a

lemma lerp_i32_one (a b : ℤ) : lerp_i32 a b 1 = b := by
  unfold lerp_i32
  rw [show ((a : ℚ) + ((b : ℚ) - (a : ℚ)) * 1) = (b : ℚ) by ring]
  exact rustRound_intCast b

lemma lerp_region_self (r : Region) (t : ℚ) : lerp_region r r t = r := by
  rcases r with ⟨n, x, y, w, h⟩
  simp [lerp_region, lerp_i32_self]

lemma lerp_region_one (ra rb : Region) :
    lerp_region ra rb 1 =
      { name := ra.name, x := rb.x, y := rb.y, width := rb.width, height := rb.height } := by
  simp [lerp_region, lerp_i32_one]

/-- Any pair `findBracket` returns is an adjacent pair of the list whose
timestamps bracket the query. -/
lemma findBracket_index :
    ∀ (l : List Keyframe) (ts : ℚ) (c d : Keyframe),
      findBracket l ts = some (c, d) →
      ∃ (n : ℕ) (h1 : n + 1 < l.length),
        l.get ⟨n, Nat.lt_of_succ_lt h1⟩ = c ∧ l.get ⟨n + 1, h1⟩ = d ∧
        c.timestamp ≤ ts ∧ ts ≤ d.timestamp
  | [], ts, c, d, h => by simp [findBracket] at h
  | [a], ts, c, d, h => by simp [findBracket] at h
  | a :: b :: rest, ts, c, d, h => by
    rw [findBracket] at h
    split_ifs at h with hcond
    · obtain ⟨rfl, rfl⟩ : a = c ∧ b = d := by
        have := Option.some.inj h
        exact ⟨congrArg Prod.fst this, congrArg Prod.snd this⟩
      exact ⟨0, by simp, rfl, rfl, hcond.1, hcond.2⟩
    · obtain ⟨n, h1, hc, hd, hle⟩ := findBracket_index (b :: rest) ts c d h
      exact ⟨n + 1, by simpa using h1, hc, hd, hle⟩

/-- Below the first matching pair every element is strictly before the
query, so the earlier endpoint of the returned pair is too. -/
lemma findBracket_head_lt :
    ∀ (l : List Keyframe) (k : Keyframe) (ts : ℚ) (c d : Keyframe),
      k.timestamp < ts → findBracket (k :: l) ts = some (c, d) →
      c.timestamp < ts ∧ ts ≤ d.timestamp
  | [], k, ts, c, d, hk, h => by simp [findBracket] at h
  | b :: rest, k, ts, c, d, hk, h => by
    rw [findBracket] at h
    split_ifs at h with hcond
    · obtain ⟨rfl, rfl⟩ : k = c ∧ b = d := by
        have := Option.some.inj h
        exact ⟨congrArg Prod.fst this, congrArg Prod.snd this⟩
      exact ⟨hk, hcond.2⟩
    · have hb : b.timestamp < ts := by
        by_contra hble
        exact hcond ⟨le_of_lt hk, le_of_not_lt hble⟩
      exact findBracket_head_lt rest b ts c d hb h

/-- `findBracket` succeeds as soon as the head is strictly before the query
and some element is at or after it. -/
lemma findBracket_isSome :
    ∀ (l : List Keyframe) (k : Keyframe) (ts : ℚ),
      k.timestamp < ts → (∃ e ∈ k :: l, ts ≤ e.timestamp) →
      (findBracket (k :: l) ts).isSome = true
  | [], k, ts, hk, ⟨e, he, hte⟩ => by
    rcases List.mem_singleton.mp he with rfl
    exact absurd (lt_of_lt_of_le hk hte) (lt_irrefl _)
  | b :: rest, k, ts, hk, ⟨e, he, hte⟩ => by
    rw [findBracket]
    split_ifs with hcond
    · rfl
    · have hb : b.timestamp < ts := by
        by_contra hble
        exact hcond ⟨le_of_lt hk, le_of_not_lt hble⟩
      refine findBracket_isSome rest b ts hb ⟨e, ?_, hte⟩
      rcases List.mem_cons.mp he with rfl | he2
      · exact absurd (lt_of_lt_of_le hk hte) (lt_irrefl _)
      · exact he2

/-- On a strictly sorted list the pair `findBracket` returns is the first
one: its later endpoint is at or before every element at or after `ts`. -/
lemma findBracket_first :
    ∀ (l : List Keyframe) (k : Keyframe) (ts : ℚ) (c d : Keyframe),
      (k :: l).Pairwise (fun p q => p.timestamp < q.timestamp) →
      k.timestamp < ts → findBracket (k :: l) ts = some (c, d) →
      ∀ e ∈ k :: l, ts ≤ e.timestamp → d.timestamp ≤ e.timestamp
  | [], k, ts, c, d, _, hk, h => by simp [findBracket] at h
  | b :: rest, k, ts, c, d, hp, hk, h => by
    rw [findBracket] at h
    split_ifs at h with hcond
    · obtain ⟨rfl, rfl⟩ : k = c ∧ b = d := by
        have := Option.some.inj h
        exact ⟨congrArg Prod.fst this, congrArg Prod.snd this⟩
      intro e he hte
      rcases List.mem_cons.mp he with rfl | he2
      · exact absurd (lt_of_lt_of_le hk hte) (lt_irrefl _)
      · rcases List.mem_cons.mp he2 with rfl | he3
        · exact le_refl _
        · exact le_of_lt (List.rel_of_pairwise_cons (List.pairwise_cons.mp hp).2 he3)
    · have hb : b.timestamp < ts := by
        by_contra hble
        exact hcond ⟨le_of_lt hk, le_of_not_lt hble⟩
      intro e he hte
      rcases List.mem_cons.mp he with rfl | he2
      · exact absurd (lt_of_lt_of_le hk hte) (lt_irrefl _)
      · exact findBracket_first rest b ts c d (List.pairwise_cons.mp hp).2 hb h e he2 hte

/-- Strict timestamp monotonicity along a sorted keyframe list. -/
lemma ts_get_strictMono (l : List Keyframe)
    (hs : l.Pairwise fun p q => p.timestamp < q.timestamp)
    {i j : ℕ} (hi : i < l.length) (hj : j < l.length) (hij : i < j) :
    (l.get ⟨i, hi⟩).timestamp < (l.get ⟨j, hj⟩).timestamp :=
  List.pairwise_iff_get.mp hs ⟨i, hi⟩ ⟨j, hj⟩ hij

lemma ts_get_index_lt (l : List Keyframe)
    (hs : l.Pairwise fun p q => p.timestamp < q.timestamp)
    {i j : ℕ} (hi : i < l.length) (hj : j < l.length)
    (h : (l.get ⟨i, hi⟩).timestamp < (l.get ⟨j, hj⟩).timestamp) : i < j := by
  by_contra hle
  rcases Nat.lt_or_ge j i with hji | hij
  · exact absurd (lt_trans h (ts_get_strictMono l hs hj hi hji)) (lt_irrefl _)
  · have : j = i := Nat.le_antisymm (le_of_not_lt hle) hij
    subst this
    exact absurd h (lt_irrefl _)

/-- On a strictly sorted list, a query strictly after position `j` and at or
before position `j+1` is bracketed by exactly that adjacent pair. -/
lemma findBracket_pair (l : List Keyframe)
    (hs : l.Pairwise fun p q => p.timestamp < q.timestamp)
    (ts : ℚ) (j : ℕ) (hj : j + 1 < l.length)
    (h1 : (l.get ⟨j, Nat.lt_of_succ_lt hj⟩).timestamp < ts)
    (h2 : ts ≤ (l.get ⟨j + 1, hj⟩).timestamp) :
    findBracket l ts = some (l.get ⟨j, Nat.lt_of_succ_lt hj⟩, l.get ⟨j + 1, hj⟩) := by
  cases l with
  | nil => exact absurd hj (by simp)
  | cons k ks =>
    have hk : k.timestamp < ts := by
      rcases Nat.eq_zero_or_pos j with rfl | hpos
      · exact h1
      · exact lt_trans
          (ts_get_strictMono (k :: ks) hs (Nat.succ_pos _) (Nat.lt_of_succ_lt hj) hpos) h1
    have hd := findBracket_isSome ks k ts hk
      ⟨(k :: ks).get ⟨j + 1, hj⟩, List.get_mem _ _ _, h2⟩
    obtain ⟨⟨c, d⟩, heq⟩ := Option.isSome_iff_exists.mp hd
    obtain ⟨n, hn1, hc, hdg, hcle, hdle⟩ := findBracket_index (k :: ks) ts c d heq
    have hclt := (findBracket_head_lt ks k ts c d hk heq).1
    have hfirst := findBracket_first ks k ts c d hs hk heq
      ((k :: ks).get ⟨j + 1, hj⟩) (List.get_mem _ _ _) h2
    have hj_le_n : j ≤ n := by
      have hlt : ((k :: ks).get ⟨j, Nat.lt_of_succ_lt hj⟩).timestamp <
          ((k :: ks).get ⟨n + 1, hn1⟩).timestamp :=
        lt_of_lt_of_le h1 (hdg ▸ hdle)
      have := ts_get_index_lt (k :: ks) hs _ hn1 hlt
      omega
    have hn_le_j : n ≤ j := by
      have hlt : ((k :: ks).get ⟨n, Nat.lt_of_succ_lt hn1⟩).timestamp <
          ((k :: ks).get ⟨j + 1, hj⟩).timestamp :=
        lt_of_lt_of_le (hc ▸ hclt) h2
      have := ts_get_index_lt (k :: ks) hs _ hj hlt
      omega
    have hnj : n = j := Nat.le_antisymm hn_le_j hj_le_n
    subst hnj
    rw [heq, ← hc, ← hdg]

-- ── Evaluation lemmas for `get_regions_at` ──────────────────────────────────

lemma getLast_eq_get' {α : Type} (l : List α) (h : l ≠ []) :
    l.getLast h = l.get ⟨l.length - 1,
      by cases l with | nil => exact absurd rfl h | cons a as => simp⟩ := by
  rw [List.getLast_eq_getElem]
  simp [List.get_eq_getElem]

lemma get_regions_at_clamp_low (vp : String) (exps : List (String × RegionExpectation))
    (k : Keyframe) (ks : List Keyframe) (ts : ℚ) (h : ts ≤ k.timestamp) :
    get_regions_at ⟨vp, k :: ks, exps⟩ ts = k.regions := by
  unfold get_regions_at
  dsimp only
  rw [if_pos h]

lemma get_regions_at_clamp_high (vp : String) (exps : List (String × RegionExpectation))
    (k : Keyframe) (ks : List Keyframe) (ts : ℚ) (h1 : ¬ ts ≤ k.timestamp)
    (h2 : ((k :: ks).getLast (List.cons_ne_nil k ks)).timestamp ≤ ts) :
    get_regions_at ⟨vp, k :: ks, exps⟩ ts =
      ((k :: ks).getLast (List.cons_ne_nil k ks)).regions := by
  unfold get_regions_at
  dsimp only
  rw [if_neg h1, if_pos h2]

lemma get_regions_at_bracket (vp : String) (exps : List (String × RegionExpectation))
    (k : Keyframe) (ks : List Keyframe) (ts : ℚ) (a b : Keyframe)
    (h1 : ¬ ts ≤ k.timestamp)
    (h2 : ¬ ((k :: ks).getLast (List.cons_ne_nil k ks)).timestamp ≤ ts)
    (h3 : findBracket (k :: ks) ts = some (a, b)) :
    get_regions_at ⟨vp, k :: ks, exps⟩ ts =
      interpolate_keyframes a b ((ts - a.timestamp) / (b.timestamp - a.timestamp)) := by
  unfold get_regions_at
  dsimp only
  rw [if_neg h1, if_neg h2, h3]

/-- Interpolating exactly onto `b` (parameter `t = 1`) reproduces `b`'s
rectangle for any region whose name `b` knows. -/
lemma lerp_region_one_of_name (ra rb : Region) (h : rb.name = ra.name) :
    lerp_region ra rb 1 = rb := by
  rcases rb with ⟨n, x, y, w, hh⟩
  rw [lerp_region_one]
  simp only at h
  simp [h]

/-- Membership characterisation of `interpolate_keyframes a b 1` when every
region of `a` has a same-named region in `b` and `b`'s names are unique:
the result holds exactly `b`'s regions. -/
lemma interp_one_mem (a b : Keyframe)
    (hinjb : ∀ x ∈ b.regions, ∀ y ∈ b.regions, x.name = y.name → x = y)
    (hsub : ∀ ra ∈ a.regions, ∃ rb ∈ b.regions, rb.name = ra.name) :
    ∀ r, r ∈ interpolate_keyframes a b 1 ↔ r ∈ b.regions := by
  intro r
  unfold interpolate_keyframes
  rw [List.mem_append]
  constructor
  · rintro (hmap | hfil)
    · obtain ⟨ra, hra, heq⟩ := List.mem_map.mp hmap
      obtain ⟨rb, hrb, hname⟩ := hsub ra hra
      have hfind : (b.regions.reverse.find? fun x => x.name == ra.name).isSome :=
        List.find?_isSome.mpr ⟨rb, List.mem_reverse.mpr hrb, by simp [hname]⟩
      obtain ⟨rb', hrb'⟩ := Option.isSome_iff_exists.mp hfind
      have hrb'mem : rb' ∈ b.regions := List.mem_reverse.mp (List.mem_of_find?_eq_some hrb')
      have hrb'name : rb'.name = ra.name := by simpa using List.find?_some hrb'
      rw [hrb'] at heq
      have : lerp_region ra rb' 1 = r := heq
      rw [lerp_region_one_of_name ra rb' hrb'name] at this
      rw [← this]
      exact hrb'mem
    · exact (List.mem_filter.mp hfil).1
  · intro hrb
    by_cases hna : (a.regions.any fun ra2 => ra2.name == r.name) = true
    · left
      obtain ⟨ra, hra, hbeq⟩ := List.any_eq_true.mp hna
      have hran : ra.name = r.name := by simpa using hbeq
      refine List.mem_map.mpr ⟨ra, hra, ?_⟩
      have hfind : (b.regions.reverse.find? fun x => x.name == ra.name).isSome :=
        List.find?_isSome.mpr ⟨r, List.mem_reverse.mpr hrb, by simp [hran]⟩
      obtain ⟨rb', hrb'⟩ := Option.isSome_iff_exists.mp hfind
      have hrb'mem : rb' ∈ b.regions := List.mem_reverse.mp (List.mem_of_find?_eq_some hrb')
      have hrb'name : rb'.name = ra.name := by simpa using List.find?_some hrb'
      have hrr : rb' = r := hinjb rb' hrb'mem r hrb (by rw [hrb'name, hran])
      rw [hrb']
      show lerp_region ra rb' 1 = r
      rw [lerp_region_one_of_name ra rb' hrb'name]
      exact hrr
    · right
      refine List.mem_filter.mpr ⟨hrb, ?_⟩
      simp only [Bool.not_eq_true] at hna
      simp [hna]

-- ── C4 ──────────────────────────────────────────────────────────────────────

/-- Original claim C4 is false: querying at the middle keyframe's timestamp
(whose region list is empty) still returns the region that only the first
keyframe carries — regions of the earlier bracket keyframe missing from the
queried keyframe linger in the result. -/
theorem keyframe_idempotence_counterexample :
    (cfgLinger.keyframes.get ⟨1, by norm_num [cfgLinger]⟩).timestamp = 1 ∧
    (cfgLinger.keyframes.get ⟨1, by norm_num [cfgLinger]⟩).regions = [] ∧
    ({ name := "r", x := 0, y := 0, width := 1, height := 1 } : Region) ∈
      get_regions_at cfgLinger 1 := by
  refine ⟨rfl, rfl, ?_⟩
  have h3 : findBracket cfgLinger.keyframes 1 = some (⟨0, [⟨"r", 0, 0, 1, 1⟩]⟩, ⟨1, []⟩) := by
    unfold cfgLinger findBracket
    rw [if_pos (by norm_num)]
  have hev := get_regions_at_bracket "" [] ⟨0, [⟨"r", 0, 0, 1, 1⟩]⟩ [⟨1, []⟩, ⟨2, []⟩] 1
    ⟨0, [⟨"r", 0, 0, 1, 1⟩]⟩ ⟨1, []⟩ (by norm_num) (by norm_num [List.getLast]) h3
  rw [show cfgLinger = ⟨"", ⟨0, [⟨"r", 0, 0, 1, 1⟩]⟩ :: [⟨1, []⟩, ⟨2, []⟩], []⟩ from rfl, hev]
  unfold interpolate_keyframes
  simp only [List.find?, List.reverse_nil, List.map_cons, List.map_nil, List.filter_nil,
    List.append_nil]
  rw [show ((1 : ℚ) - 0) / (1 - 0) = 1 by norm_num]
  rw [show (Option.none.getD (⟨"r", 0, 0, 1, 1⟩ : Region)) = ⟨"r", 0, 0, 1, 1⟩ from rfl]
  rw [lerp_region_self]
  exact List.mem_singleton.mpr rfl

/-- C4 (amended): with strictly ascending keyframes, unique region names in
each keyframe, and no region disappearing between consecutive keyframes,
interpolation at any keyframe's timestamp reproduces exactly that
keyframe's regions (same members, identical integer rectangles). -/
theorem regions_at_keyframe_ts (cfg : RegionConfig) (i : ℕ) (hi : i < cfg.keyframes.length)
    (hs : cfg.keyframes.Pairwise fun p q => p.timestamp < q.timestamp)
    (hinj : ∀ kf ∈ cfg.keyframes, ∀ x ∈ kf.regions, ∀ y ∈ kf.regions, x.name = y.name → x = y)
    (hmono : ∀ (j : ℕ) (hj : j + 1 < cfg.keyframes.length),
      ∀ ra ∈ (cfg.keyframes.get ⟨j, Nat.lt_of_succ_lt hj⟩).regions,
        ∃ rb ∈ (cfg.keyframes.get ⟨j + 1, hj⟩).regions, rb.name = ra.name) :
    ∀ r, r ∈ get_regions_at cfg ((cfg.keyframes.get ⟨i, hi⟩).timestamp) ↔
      r ∈ (cfg.keyframes.get ⟨i, hi⟩).regions := by
  obtain ⟨vp, l, exps⟩ := cfg
  dsimp only at hi hs hinj hmono ⊢
  cases l with
  | nil => exact absurd hi (by simp)
  | cons k ks =>
    intro r
    set ts := (((k :: ks).get ⟨i, hi⟩)).timestamp with hts
    by_cases h0 : ts ≤ k.timestamp
    · have hi0 : i = 0 := by
        by_contra hne
        have hlt := ts_get_strictMono (k :: ks) hs (Nat.succ_pos _) hi
          (Nat.pos_of_ne_zero hne)
        exact absurd (lt_of_lt_of_le hlt h0) (lt_irrefl _)
      subst hi0
      rw [get_regions_at_clamp_low vp exps k ks ts h0]
      exact Iff.rfl
    · by_cases hlast : (((k :: ks).getLast (List.cons_ne_nil k ks))).timestamp ≤ ts
      · have hilast : i = (k :: ks).length - 1 := by
          by_contra hne
          have hlt : i < (k :: ks).length - 1 := by
            have := hi
            omega
          have hmlt := ts_get_strictMono (k :: ks) hs hi
            (by omega : (k :: ks).length - 1 < (k :: ks).length) hlt
          rw [getLast_eq_get'] at hlast
          exact absurd (lt_of_lt_of_le hmlt hlast) (lt_irrefl _)
        rw [get_regions_at_clamp_high vp exps k ks ts h0 hlast, getLast_eq_get']
        subst hilast
        exact Iff.rfl
      · -- interior: 0 < i and i < length - 1
        have hpos : 0 < i := by
          by_contra hne
          have : i = 0 := by omega
          subst this
          exact h0 (le_refl _)
        have hilt : i + 1 < (k :: ks).length := by
          rcases Nat.lt_or_ge (i + 1) (k :: ks).length with hcase | hcase
          · exact hcase
          · exfalso
            have hieq : i = (k :: ks).length - 1 := by
              have := hi
              omega
            apply hlast
            rw [getLast_eq_get']
            subst hieq
            exact le_refl _
        obtain ⟨j, rfl⟩ : ∃ j, i = j + 1 := ⟨i - 1, by omega⟩
        have hj1 : j + 1 < (k :: ks).length := hi
        have hfb := findBracket_pair (k :: ks) hs ts j hj1
          (ts_get_strictMono (k :: ks) hs (Nat.lt_of_succ_lt hj1) hi (by omega))
          (le_of_eq hts)
        have hbr := get_regions_at_bracket vp exps k ks ts _ _ h0 hlast hfb
        rw [hbr]
        have ha_lt : ((k :: ks).get ⟨j, Nat.lt_of_succ_lt hj1⟩).timestamp <
            ((k :: ks).get ⟨j + 1, hj1⟩).timestamp :=
          ts_get_strictMono (k :: ks) hs _ _ (by omega)
        have ht1 : (ts - ((k :: ks).get ⟨j, Nat.lt_of_succ_lt hj1⟩).timestamp) /
            (((k :: ks).get ⟨j + 1, hj1⟩).timestamp -
              ((k :: ks).get ⟨j, Nat.lt_of_succ_lt hj1⟩).timestamp) = 1 := by
          rw [hts]
          exact div_self (by linarith)
        rw [ht1]
        exact interp_one_mem _ _
          (hinj _ (List.get_mem _ _ _))
          (hmono j hj1) r

/-- Witness for C4 (amended): the two-keyframe scenario at the second
keyframe's timestamp reproduces its region exactly. -/
theorem regions_at_keyframe_ts_witness :
    (cfgPair.keyframes.Pairwise fun p q => p.timestamp < q.timestamp) ∧
    (({ name := "g", x := 0, y := 0, width := 200, height := 100 } : Region) ∈
        get_regions_at cfgPair
          ((cfgPair.keyframes.get ⟨1, by norm_num [cfgPair]⟩).timestamp) ↔
      ({ name := "g", x := 0, y := 0, width := 200, height := 100 } : Region) ∈
        (cfgPair.keyframes.get ⟨1, by norm_num [cfgPair]⟩).regions) :=
  ⟨by norm_num [cfgPair, List.pairwise_cons],
    (regions_at_keyframe_ts cfgPair 1 (by norm_num [cfgPair])
      (by norm_num [cfgPair, List.pairwise_cons])
      (by
        intro kf hkf x hx y hy hxy
        simp only [cfgPair] at hkf
        rcases List.mem_cons.mp hkf with rfl | hkf2
        · rw [List.mem_singleton.mp hx, List.mem_singleton.mp hy]
        · rcases List.mem_cons.mp hkf2 with rfl | hkf3
          · rw [List.mem_singleton.mp hx, List.mem_singleton.mp hy]
          · cases hkf3)
      (by
        intro j hj ra hra
        have hj0 : j = 0 := by
          have : cfgPair.keyframes.length = 2 := by norm_num [cfgPair]
          omega
        subst hj0
        refine ⟨⟨"g", 0, 0, 200, 100⟩, List.mem_singleton.mpr rfl, ?_⟩
        have hra' : ra = ⟨"g", 0, 0, 100, 50⟩ := List.mem_singleton.mp hra
        rw [hra'])) _⟩

-- ── Further timestamp-ordering helpers ──────────────────────────────────────

lemma ts_get_le_getLast (l : List Keyframe)
    (hs : l.Pairwise fun p q => p.timestamp < q.timestamp)
    (hne : l ≠ []) {i : ℕ} (hi : i < l.length) :
    (l.get ⟨i, hi⟩).timestamp ≤ (l.getLast hne).timestamp := by
  rw [getLast_eq_get']
  rcases Nat.lt_or_ge i (l.length - 1) with hcase | hcase
  · exact le_of_lt (ts_get_strictMono l hs hi (by omega) hcase)
  · have heq : i = l.length - 1 := by omega
    subst heq
    exact le_refl _

lemma ts_head_le_get (k : Keyframe) (ks : List Keyframe)
    (hs : (k :: ks).Pairwise fun p q => p.timestamp < q.timestamp)
    {j : ℕ} (hj : j < (k :: ks).length) :
    k.timestamp ≤ ((k :: ks).get ⟨j, hj⟩).timestamp := by
  rcases Nat.eq_zero_or_pos j with rfl | hpos
  · exact le_refl _
  · exact le_of_lt (ts_get_strictMono _ hs (Nat.succ_pos _) hj hpos)

-- ── C6 ──────────────────────────────────────────────────────────────────────

/-- Original claim C6 is false: a configuration with one (region-less)
keyframe has a non-empty keyframe list yet yields an empty region list. -/
theorem nonempty_keyframes_empty_result_counterexample :
    cfgNoRegions.keyframes ≠ [] ∧ get_regions_at cfgNoRegions 0 = [] := by
  constructor
  · simp [cfgNoRegions]
  · rw [show cfgNoRegions = ⟨"", (⟨0, []⟩ : Keyframe) :: [], []⟩ from rfl,
      get_regions_at_clamp_low "" [] ⟨0, []⟩ [] 0 (le_refl _)]

/-- C6 (amended): with a non-empty keyframe list whose every keyframe
carries at least one region, `get_regions_at` never returns an empty list;
an empty result needs an empty keyframe list or a selected keyframe without
regions. -/
theorem regions_at_nonempty (cfg : RegionConfig) (ts : ℚ)
    (_hs : cfg.keyframes.Pairwise fun p q => p.timestamp < q.timestamp)
    (hne : cfg.keyframes ≠ [])
    (hreg : ∀ kf ∈ cfg.keyframes, kf.regions ≠ []) :
    get_regions_at cfg ts ≠ [] := by
  obtain ⟨vp, l, exps⟩ := cfg
  dsimp only at hne hreg ⊢
  cases l with
  | nil => exact absurd rfl hne
  | cons k ks =>
    by_cases h0 : ts ≤ k.timestamp
    · rw [get_regions_at_clamp_low vp exps k ks ts h0]
      exact hreg k (List.mem_cons_self _ _)
    · by_cases hlast : ((k :: ks).getLast (List.cons_ne_nil k ks)).timestamp ≤ ts
      · rw [get_regions_at_clamp_high vp exps k ks ts h0 hlast]
        exact hreg _ (List.getLast_mem _)
      · have hk : k.timestamp < ts := not_le.mp h0
        have hex : ∃ e ∈ k :: ks, ts ≤ e.timestamp :=
          ⟨(k :: ks).getLast (List.cons_ne_nil k ks), List.getLast_mem _,
            le_of_lt (not_le.mp hlast)⟩
        obtain ⟨⟨a, b⟩, heq⟩ := Option.isSome_iff_exists.mp (findBracket_isSome ks k ts hk hex)
        rw [get_regions_at_bracket vp exps k ks ts a b h0 hlast heq]
        obtain ⟨n, hn1, hc, _, _⟩ := findBracket_index (k :: ks) ts a b heq
        have hareg := hreg a (hc ▸ List.get_mem _ _ _)
        unfold interpolate_keyframes
        intro hemp
        rcases List.append_eq_nil.mp hemp with ⟨hmap, _⟩
        exact hareg (List.map_eq_nil_iff.mp hmap)

/-- Witness for C6 (amended): the two-keyframe scenario returns a region at
an interior timestamp. -/
theorem regions_at_nonempty_witness :
    cfgPair.keyframes ≠ [] ∧ get_regions_at cfgPair 5 ≠ [] :=
  ⟨by simp [cfgPair],
    regions_at_nonempty cfgPair 5 (by norm_num [cfgPair, List.pairwise_cons])
      (by simp [cfgPair])
      (by
        intro kf hkf
        simp only [cfgPair] at hkf
        rcases List.mem_cons.mp hkf with rfl | hkf2
        · simp
        · rcases List.mem_cons.mp hkf2 with rfl | hkf3
          · simp
          · cases hkf3)⟩

-- ── C5 ──────────────────────────────────────────────────────────────────────

/-- Original claim C5's second half is false under either reading of "that
keyframe": the region `r`, present in the later keyframe (timestamp 20) of
the bracketing pair (10, 20) and absent from the earlier one, already
appears at timestamp 15 < 20; and (because `r` also sits in an earlier
keyframe at timestamp 0) it likewise appears at timestamp 0 < 10. -/
theorem later_keyframe_region_counterexample :
    ({ name := "r", x := 1, y := 1, width := 2, height := 2 } : Region) ∈
      get_regions_at cfgAppear 15 ∧
    (15 : ℚ) < 20 ∧
    ({ name := "r", x := 5, y := 5, width := 5, height := 5 } : Region) ∈
      get_regions_at cfgAppear 0 ∧
    (0 : ℚ) < 10 := by
  refine ⟨?_, by norm_num, ?_, by norm_num⟩
  · have h3 : findBracket cfgAppear.keyframes 15 =
        some (⟨10, []⟩, ⟨20, [⟨"r", 1, 1, 2, 2⟩]⟩) := by
      show findBracket
        [⟨0, [⟨"r", 5, 5, 5, 5⟩]⟩, ⟨10, []⟩, ⟨20, [⟨"r", 1, 1, 2, 2⟩]⟩] 15 = _
      rw [findBracket, if_neg (by norm_num), findBracket, if_pos (by norm_num)]
    rw [show cfgAppear =
        ⟨"", (⟨0, [⟨"r", 5, 5, 5, 5⟩]⟩ : Keyframe) :: [⟨10, []⟩, ⟨20, [⟨"r", 1, 1, 2, 2⟩]⟩],
          []⟩ from rfl,
      get_regions_at_bracket "" [] _ _ 15 _ _ (by norm_num)
        (by norm_num [List.getLast]) h3]
    simp [interpolate_keyframes]
  · rw [show cfgAppear =
        ⟨"", (⟨0, [⟨"r", 5, 5, 5, 5⟩]⟩ : Keyframe) :: [⟨10, []⟩, ⟨20, [⟨"r", 1, 1, 2, 2⟩]⟩],
          []⟩ from rfl,
      get_regions_at_clamp_low "" [] _ _ 0 (le_refl _)]
    exact List.mem_singleton.mpr rfl

/-- C5 (amended): a region present in the later keyframe of an adjacent
bracketing pair and absent (by name) from the earlier one appears with its
rectangle unmodified at every timestamp strictly between the two; and if
additionally its name occurs in no keyframe at or before the earlier
keyframe's timestamp, it does not appear at any timestamp strictly before
the earlier keyframe's timestamp. -/
theorem region_from_later_keyframe (cfg : RegionConfig) (j : ℕ)
    (hj : j + 1 < cfg.keyframes.length)
    (hs : cfg.keyframes.Pairwise fun p q => p.timestamp < q.timestamp)
    (r : Region)
    (hrb : r ∈ (cfg.keyframes.get ⟨j + 1, hj⟩).regions)
    (hra : ∀ ra ∈ (cfg.keyframes.get ⟨j, Nat.lt_of_succ_lt hj⟩).regions,
      ra.name ≠ r.name) :
    (∀ ts : ℚ, (cfg.keyframes.get ⟨j, Nat.lt_of_succ_lt hj⟩).timestamp < ts →
      ts < (cfg.keyframes.get ⟨j + 1, hj⟩).timestamp →
      r ∈ get_regions_at cfg ts) ∧
    ((∀ kf ∈ cfg.keyframes,
        kf.timestamp ≤ (cfg.keyframes.get ⟨j, Nat.lt_of_succ_lt hj⟩).timestamp →
        ∀ rr ∈ kf.regions, rr.name ≠ r.name) →
      ∀ ts : ℚ, ts < (cfg.keyframes.get ⟨j, Nat.lt_of_succ_lt hj⟩).timestamp →
        ∀ rr ∈ get_regions_at cfg ts, rr.name ≠ r.name) := by
  obtain ⟨vp, l, exps⟩ := cfg
  dsimp only at hj hs hrb hra ⊢
  cases l with
  | nil => exact absurd hj (by simp)
  | cons k ks =>
    constructor
    · intro ts hts1 hts2
      have h0 : ¬ ts ≤ k.timestamp :=
        not_le.mpr (lt_of_le_of_lt (ts_head_le_get k ks hs (Nat.lt_of_succ_lt hj)) hts1)
      have hlast : ¬ ((k :: ks).getLast (List.cons_ne_nil k ks)).timestamp ≤ ts :=
        not_le.mpr (lt_of_lt_of_le hts2
          (ts_get_le_getLast (k :: ks) hs (List.cons_ne_nil k ks) hj))
      have hfb := findBracket_pair (k :: ks) hs ts j hj hts1 (le_of_lt hts2)
      rw [get_regions_at_bracket vp exps k ks ts _ _ h0 hlast hfb]
      unfold interpolate_keyframes
      refine List.mem_append.mpr (Or.inr (List.mem_filter.mpr ⟨hrb, ?_⟩))
      simp only [Bool.not_eq_true', List.any_eq_false, beq_iff_eq]
      intro x hx
      exact hra x hx
    · intro habs ts hts rr hrr heqname
      by_cases h0 : ts ≤ k.timestamp
      · rw [get_regions_at_clamp_low vp exps k ks ts h0] at hrr
        exact habs k (List.mem_cons_self _ _)
          (ts_head_le_get k ks hs (Nat.lt_of_succ_lt hj)) rr hrr heqname
      · by_cases hlast : ((k :: ks).getLast (List.cons_ne_nil k ks)).timestamp ≤ ts
        · have h1 := ts_get_le_getLast (k :: ks) hs (List.cons_ne_nil k ks)
            (Nat.lt_of_succ_lt hj)
          exact absurd (lt_of_lt_of_le hts h1) (not_lt.mpr hlast)
        · have hk : k.timestamp < ts := not_le.mp h0
          have hex : ∃ e ∈ k :: ks, ts ≤ e.timestamp :=
            ⟨(k :: ks).get ⟨j, Nat.lt_of_succ_lt hj⟩, List.get_mem _ _ _, le_of_lt hts⟩
          obtain ⟨⟨a, b⟩, heq2⟩ :=
            Option.isSome_iff_exists.mp (findBracket_isSome ks k ts hk hex)
          rw [get_regions_at_bracket vp exps k ks ts a b h0 hlast heq2] at hrr
          obtain ⟨n, hn1, hc, hd, hcle, hdle⟩ := findBracket_index (k :: ks) ts a b heq2
          have hfirst := findBracket_first ks k ts a b hs hk heq2
            ((k :: ks).get ⟨j, Nat.lt_of_succ_lt hj⟩) (List.get_mem _ _ _) (le_of_lt hts)
          unfold interpolate_keyframes at hrr
          rcases List.mem_append.mp hrr with hmap | hfil
          · obtain ⟨ra, hra2, heq3⟩ := List.mem_map.mp hmap
            have hname : rr.name = ra.name := by rw [← heq3]; rfl
            exact habs a (hc ▸ List.get_mem _ _ _)
              (le_of_lt (lt_of_le_of_lt hcle hts)) ra hra2
              (by rw [← hname, heqname])
          · exact habs b (hd ▸ List.get_mem _ _ _) hfirst rr
              (List.mem_filter.mp hfil).1 heqname

/-- Witness for C5 (amended): in the three-keyframe configuration the
region of the last keyframe appears unmodified at an interior timestamp of
the final bracket. -/
theorem region_from_later_keyframe_witness :
    (cfgAppear.keyframes.Pairwise fun p q => p.timestamp < q.timestamp) ∧
    ({ name := "r", x := 1, y := 1, width := 2, height := 2 } : Region) ∈
      (cfgAppear.keyframes.get ⟨2, by norm_num [cfgAppear]⟩).regions ∧
    ({ name := "r", x := 1, y := 1, width := 2, height := 2 } : Region) ∈
      get_regions_at cfgAppear 15 :=
  ⟨by norm_num [cfgAppear, List.pairwise_cons],
    List.mem_singleton.mpr rfl,
    (region_from_later_keyframe cfgAppear 1 (by norm_num [cfgAppear])
      (by norm_num [cfgAppear, List.pairwise_cons])
      { name := "r", x := 1, y := 1, width := 2, height := 2 }
      (List.mem_singleton.mpr rfl)
      (by intro ra hra; cases hra)).1 15
      (by norm_num : (10 : ℚ) < 15) (by norm_num : (15 : ℚ) < 20)⟩

-- ── C9: CLAHE clip-and-redistribute ─────────────────────────────────────────

lemma sum_map_add {α : Type} (l : List α) (f g : α → ℕ) :
    (l.map fun x => f x + g x).sum = (l.map f).sum + (l.map g).sum := by
  induction l with
  | nil => rfl
  | cons x xs ih =>
    simp only [List.map_cons, List.sum_cons, ih]
    omega

/-- Closed form of the clipping fold: bins capped at `clip`, excess the sum
of the clipped-away amounts. -/
lemma clipPass_eq (hist : List ℕ) (clip : ℕ) :
    clipPass hist clip =
      (hist.map fun h => min h clip, (hist.map fun h => h - min h clip).sum) := by
  have go : ∀ (hist : List ℕ) (acc : List ℕ) (e : ℕ),
      hist.foldl
        (fun acc h =>
          if clip < h then (acc.1 ++ [clip], acc.2 + (h - clip))
          else (acc.1 ++ [h], acc.2)) (acc, e) =
      (acc ++ hist.map (fun h => min h clip),
        e + (hist.map fun h => h - min h clip).sum) := by
    intro hist
    induction hist with
    | nil => intro acc e; simp
    | cons h hs ih =>
      intro acc e
      rw [List.foldl_cons]
      by_cases hc : clip < h
      · have h1 : min h clip = clip := min_eq_right hc.le
        show (hs.foldl _ (if clip < h then (acc ++ [clip], e + (h - clip))
          else (acc ++ [h], e))) = _
        rw [if_pos hc, ih]
        simp only [List.map_cons, List.sum_cons, Prod.mk.injEq, h1]
        constructor
        · simp
        · omega
      · have h1 : min h clip = h := min_eq_left (le_of_not_lt hc)
        show (hs.foldl _ (if clip < h then (acc ++ [clip], e + (h - clip))
          else (acc ++ [h], e))) = _
        rw [if_neg hc, ih]
        simp only [List.map_cons, List.sum_cons, Prod.mk.injEq, h1]
        constructor
        · simp
        · omega
  unfold clipPass
  rw [go]
  simp

lemma sum_enumFrom_map (l : List ℕ) (c m : ℕ) : ∀ k,
    ((List.enumFrom k l).map fun p => p.2 + c + if p.1 < m then 1 else 0).sum =
      l.sum + l.length * c +
        ((List.range l.length).map fun i => if k + i < m then 1 else 0).sum := by
  induction l with
  | nil => intro k; simp
  | cons x xs ih =>
    intro k
    rw [show List.enumFrom k (x :: xs) = (k, x) :: List.enumFrom (k + 1) xs from rfl]
    rw [List.map_cons, List.sum_cons, ih (k + 1)]
    rw [show (x :: xs).length = xs.length + 1 from rfl, List.range_succ_eq_map]
    rw [List.map_cons, List.sum_cons, List.map_map]
    have hshift : ((List.range xs.length).map fun i => if k + 1 + i < m then 1 else 0) =
        (List.range xs.length).map
          ((fun i => if k + i < m then 1 else 0) ∘ Nat.succ) :=
      List.map_congr_left fun i _ => by
        simp only [Function.comp]
        rw [show k + 1 + i = k + i.succ from by omega]
    rw [hshift]
    simp only [List.sum_cons]
    have : k + 0 < m ↔ k < m := by omega
    simp only [this]
    ring

/-- Bounded-indicator sum over `range`. -/
lemma sum_range_indicator (n m : ℕ) (h : m ≤ n) :
    ((List.range n).map fun i => if i < m then 1 else 0).sum = m := by
  induction n with
  | zero =>
    simp only [List.range_zero, List.map_nil, List.sum_nil]
    omega
  | succ n ih =>
    rw [List.range_succ, List.map_append, List.sum_append]
    rcases Nat.lt_or_ge n m with hc | hc
    · have hm : m = n + 1 := by omega
      subst hm
      have hall : ((List.range n).map fun i => if i < n + 1 then 1 else 0) =
          (List.range n).map fun _ => 1 :=
        List.map_congr_left fun i hi => by
          have hi2 : i < n := List.mem_range.mp hi
          rw [if_pos (by omega)]
      rw [hall]
      simp
    · rw [ih hc]
      simp only [List.map_cons, List.map_nil, List.sum_cons, List.sum_nil]
      have : ¬ n < m := by omega
      simp [this]

lemma tileHist_length (pixels : List (Fin 256)) : (tileHist pixels).length = 256 := by
  simp [tileHist]

/-- A tile histogram's bins add up to the tile's pixel count. -/
lemma tileHist_sum (pixels : List (Fin 256)) : (tileHist pixels).sum = pixels.length := by
  induction pixels with
  | nil =>
    show (tileHist []).sum = 0
    unfold tileHist
    refine List.sum_eq_zero fun x hx => ?_
    obtain ⟨v, _, rfl⟩ := List.mem_map.mp hx
    rfl
  | cons p ps ih =>
    unfold tileHist at ih ⊢
    have hsplit : ((List.range 256).map fun v => (p :: ps).countP fun q => (q : ℕ) == v) =
        (List.range 256).map fun v =>
          (ps.countP fun q => (q : ℕ) == v) + (if ((p : ℕ) == v) then 1 else 0) :=
      List.map_congr_left fun v _ => List.countP_cons _ _ _
    rw [hsplit, sum_map_add, ih]
    have hsingle : ((List.range 256).map fun v => if ((p : ℕ) == v) then 1 else 0).sum = 1 := by
      have hp : (p : ℕ) < 256 := p.isLt
      have gen : ∀ (K k : ℕ), k < K →
          ((List.range K).map fun v => if (k == v) then 1 else 0).sum = 1 := by
        intro K
        induction K with
        | zero => intro k hk; omega
        | succ K ihK =>
          intro k hk
          rw [List.range_succ, List.map_append, List.sum_append]
          rcases Nat.lt_or_ge k K with hc | hc
          · rw [ihK k hc]
            simp only [List.map_cons, List.map_nil, List.sum_cons, List.sum_nil]
            have : (k == K) = false := by simp; omega
            simp [this]
          · have hkK : k = K := by omega
            subst hkK
            have hzero : ((List.range k).map fun v => if (k == v) then 1 else 0) =
                (List.range k).map fun _ => 0 :=
              List.map_congr_left fun v hv => by
                have : v < k := List.mem_range.mp hv
                have : (k == v) = false := by simp; omega
                simp [this]
            rw [hzero]
            simp
      exact gen 256 (p : ℕ) hp
    rw [hsingle]
    rfl

set_option maxRecDepth 8000 in
/-- Original claim C9's clip threshold is false for small boundary tiles:
for a 1×1 tile with `clipFactor = 2` the code clips at
`max(1, ⌊2 · 1/256⌋) = 1`, not at `⌊2 · (1/256)⌋ = 0`, and the two
thresholds produce different redistributed histograms on the tile's actual
histogram. -/
theorem clahe_clip_formula_counterexample :
    tile_clip_limit 1 2 ≠ tile_clip_limit_claimed 1 2 ∧
    clip_and_redistribute (tileHist [(5 : Fin 256)]) (tile_clip_limit 1 2) ≠
      clip_and_redistribute (tileHist [(5 : Fin 256)]) (tile_clip_limit_claimed 1 2) := by
  have hfl : ⌊(1 : ℚ) / 256 * 2⌋ = 0 := by
    rw [Int.floor_eq_zero_iff]
    constructor <;> norm_num
  have h1 : tile_clip_limit 1 2 = 1 := by
    unfold tile_clip_limit
    rw [show ((1 : ℕ) : ℚ) / 256 * 2 = (1 : ℚ) / 256 * 2 by norm_num, hfl]
    rfl
  have h2 : tile_clip_limit_claimed 1 2 = 0 := by
    unfold tile_clip_limit_claimed
    rw [show ((1 : ℕ) : ℚ) / 256 * 2 = (1 : ℚ) / 256 * 2 by norm_num, hfl]
    rfl
  rw [h1, h2]
  constructor
  · decide
  · decide

/-- C9 (amended): per CLAHE tile, with the code's clip threshold
`max(1, ⌊clipFactor · tileArea/256⌋)`, the clip-and-redistribute step caps
every bin at the threshold and then adds `⌊excess/256⌋` to each of the 256
bins plus one extra count to each of the first `excess mod 256` bins, where
`excess` is the total amount removed by clipping; consequently the
histogram's total count after redistribution equals the tile's pixel
count. -/
theorem clahe_clip_redistribute (pixels : List (Fin 256)) (factor : ℚ) :
    clip_and_redistribute (tileHist pixels) (tile_clip_limit pixels.length factor) =
      (tileHist pixels).enum.map (fun p =>
        min p.2 (tile_clip_limit pixels.length factor)
          + (clipPass (tileHist pixels) (tile_clip_limit pixels.length factor)).2 / 256
          + if p.1 < (clipPass (tileHist pixels)
                (tile_clip_limit pixels.length factor)).2 % 256
            then 1 else 0) ∧
    (clip_and_redistribute (tileHist pixels)
        (tile_clip_limit pixels.length factor)).sum = pixels.length := by
  set hist := tileHist pixels with hhist
  set clip := tile_clip_limit pixels.length factor with hclip
  have hpass := clipPass_eq hist clip
  set E := (hist.map fun h => h - min h clip).sum with hE
  have hform : clip_and_redistribute hist clip =
      hist.enum.map (fun p => min p.2 clip + E / 256 + if p.1 < E % 256 then 1 else 0) := by
    unfold clip_and_redistribute redistribute
    rw [hpass]
    rw [List.enum_map, List.map_map]
    apply List.map_congr_left
    intro p _
    rfl
  constructor
  · rw [hform, hpass]
  · rw [hform]
    have hlen : hist.length = 256 := tileHist_length pixels
    have hsum := sum_enumFrom_map (hist.map fun h => min h clip) (E / 256) (E % 256) 0
    have hmapped : (hist.enum.map
        (fun p => min p.2 clip + E / 256 + if p.1 < E % 256 then 1 else 0)) =
        ((hist.map fun h => min h clip).enum.map
          (fun p => p.2 + E / 256 + if p.1 < E % 256 then 1 else 0)) := by
      rw [List.enum_map, List.map_map]
      apply List.map_congr_left
      intro p _
      rfl
    rw [hmapped]
    rw [show (hist.map fun h => min h clip).enum =
      List.enumFrom 0 (hist.map fun h => min h clip) from rfl]
    rw [hsum]
    have hzero : ((List.range (hist.map fun h => min h clip).length).map
        fun i => if 0 + i < E % 256 then 1 else 0) =
        ((List.range (hist.map fun h => min h clip).length).map
          fun i => if i < E % 256 then 1 else 0) :=
      List.map_congr_left fun i _ => by
        rw [Nat.zero_add]
    rw [hzero]
    rw [List.length_map, hlen]
    have hmod : E % 256 ≤ 256 := le_of_lt (Nat.mod_lt _ (by norm_num))
    rw [sum_range_indicator 256 (E % 256) hmod]
    have hmin_sum : (hist.map fun h => min h clip).sum + E = hist.sum := by
      rw [hE, ← sum_map_add]
      have : (hist.map fun x => min x clip + (x - min x clip)) = hist.map fun x => x :=
        List.map_congr_left fun x _ => by omega
      rw [this, List.map_id']
    have hdiv : 256 * (E / 256) + E % 256 = E := Nat.div_add_mod E 256
    have hfinal := tileHist_sum pixels
    rw [← hhist] at hfinal
    omega

end Measurementor
